import Mathlib

/-!
Verification of the Qplex-simulation core against its specification.

The development shallowly embeds the algorithmic core of the repository:

* the per-particle trajectory classifier `catching_rate` from
  `src/simulations/atomic_flux_fraction.py` (the identical copy lives in
  `src/simulations/zeeman_slower_diffraction_det.py`);
* the CDF construction `build_cdf_axial` / `build_cdf_ortho` from
  `src/configurations/oven_diffraction.py`;
* the inverse-transform interpolation (`np.interp`) used by `sample_velocities`;
* the batched rejection loop of `sample_positions`;
* the `np.searchsorted`-based mask construction of
  `src/plottings/zeeman_slower_plotting.py`.

Real-valued data is modelled over `ℚ` (the Python floats carry no overflow
semantics relevant to the verified properties); randomness is modelled by an
explicit stream of draws; the unbounded `while` loop is modelled with explicit
fuel, so that non-termination is expressible as `= none` for every fuel.
-/

/-! ## Trajectory classifier

Embedding of `catching_rate` (`src/simulations/atomic_flux_fraction.py`,
lines 40-72).  A particle's trajectory enters only through its z-history
`z_trajs[i, :]`, modelled as a `List ℚ`.
-/

/-- Threshold `cutoff = 0.35` from `catching_rate`. -/
def zCutoff : ℚ := 35 / 100

/-- Trap half-width `0.05` used in the `escaped` test of `catching_rate`. -/
def zTrap : ℚ := 5 / 100

/-- Inner threshold `0.01` used in the `lost` test of `catching_rate`. -/
def zInnermost : ℚ := 1 / 100

/-- First index with `z > cutoff`; `np.argmax(z > cutoff)` together with the
`never_crossed` fix-up sets the index to the history length when the condition
never holds, which is exactly `List.findIdx`. -/
def cutIndex (zs : List ℚ) : ℕ := zs.findIdx (fun z => decide (zCutoff < z))

/-- Last recorded z-coordinate, `z_trajs[:, -1]`. -/
def zFinal : List ℚ → ℚ
  | [] => 0
  | [z] => z
  | _ :: z :: zs => zFinal (z :: zs)

/-- Maximum of the z-history, `np.max(z_trajs, axis=1)` (a signed maximum,
not a maximum of absolute values). -/
def zMax : List ℚ → ℚ
  | [] => 0
  | z :: zs => zs.foldl max z

/-- `escaped = (z_final > 0.05) | (z_final < -0.05) | (cut_indices < n_timesteps)`. -/
def escaped (zs : List ℚ) : Bool :=
  decide (zTrap < zFinal zs) || decide (zFinal zs < -zTrap) ||
    decide (cutIndex zs < zs.length)

/-- `lost = (~escaped) & (z_max > 0.01)`. -/
def lost (zs : List ℚ) : Bool :=
  !escaped zs && decide (zInnermost < zMax zs)

/-- `trapped = ~(escaped | lost)`. -/
def trapped (zs : List ℚ) : Bool := !(escaped zs || lost zs)

/-- `rate = np.mean(trapped)`: the fraction of particles labelled trapped. -/
def catching_rate (traj : List (List ℚ)) : ℚ :=
  (traj.countP trapped : ℚ) / (traj.length : ℚ)

lemma findIdx_lt_length_iff (p : ℚ → Bool) (l : List ℚ) :
    l.findIdx p < l.length ↔ ∃ x ∈ l, p x := List.findIdx_lt_length

lemma cutIndex_lt_iff (zs : List ℚ) :
    cutIndex zs < zs.length ↔ ∃ z ∈ zs, zCutoff < z := by
  rw [cutIndex, findIdx_lt_length_iff]
  simp

/-- C1: for every trajectory input, the labels escaped / lost / trapped are
pairwise disjoint and jointly exhaustive over the particle set, and the
returned capture rate (fraction labelled trapped) lies in `[0, 1]`. -/
theorem catching_rate_partition_and_bounds (traj : List (List ℚ)) (h : traj ≠ []) :
    (∀ zs : List ℚ,
        (escaped zs || lost zs || trapped zs) = true ∧
        (escaped zs && lost zs) = false ∧
        (escaped zs && trapped zs) = false ∧
        (lost zs && trapped zs) = false) ∧
    0 ≤ catching_rate traj ∧ catching_rate traj ≤ 1 := by
  refine ⟨fun zs => ?_, ?_, ?_⟩
  · cases h1 : escaped zs <;>
      cases h2 : decide (zInnermost < zMax zs) <;>
        simp [lost, trapped, h1, h2]
  · rw [catching_rate]
    exact div_nonneg (by positivity) (by positivity)
  · have hlen : 0 < (traj.length : ℚ) := by
      have : 0 < traj.length := List.length_pos.mpr h
      exact_mod_cast this
    rw [catching_rate, div_le_one hlen]
    exact_mod_cast List.countP_le_length _

/-- Witness for C1 at the one-particle trajectory `[[0]]`. -/
theorem catching_rate_partition_and_bounds_witness :
    0 ≤ catching_rate [[(0:ℚ)]] ∧ catching_rate [[(0:ℚ)]] ≤ 1 :=
  (catching_rate_partition_and_bounds [[(0:ℚ)]] (by simp)).2

/-- C2: a particle is labelled escaped iff its final z lies strictly outside
`[-z_trap, z_trap]` or its z exceeded `z_cutoff` at some recorded timestep;
when z never exceeds `z_cutoff`, the first-crossing index equals the history
length (treated as "end of history", contributing no escape). -/
theorem escaped_iff_final_or_crossing (zs : List ℚ) :
    (escaped zs = true ↔
      (zTrap < zFinal zs ∨ zFinal zs < -zTrap ∨ ∃ z ∈ zs, zCutoff < z)) ∧
    ((∀ z ∈ zs, z ≤ zCutoff) → cutIndex zs = zs.length) := by
  constructor
  · rw [escaped]
    simp only [Bool.or_eq_true, decide_eq_true_eq, cutIndex_lt_iff]
    tauto
  · intro hall
    have hle : cutIndex zs ≤ zs.length := List.findIdx_le_length _
    have hnot : ¬ cutIndex zs < zs.length := by
      rw [cutIndex_lt_iff]
      rintro ⟨z, hz, hgt⟩
      exact absurd hgt (not_lt.mpr (hall z hz))
    omega

/-- Witness for C2: on the history `[0]` (never above the cutoff) the
first-crossing index equals the history length. -/
theorem escaped_iff_final_or_crossing_witness :
    cutIndex [(0:ℚ)] = [(0:ℚ)].length :=
  (escaped_iff_final_or_crossing [(0:ℚ)]).2 (by
    intro z hz
    simp only [List.mem_singleton] at hz
    rw [hz, zCutoff]
    norm_num)

/-- C10: among non-escaped particles the lost/trapped split compares the
signed maximum of z with `z_innermost`; a particle whose z dips below
`-z_cutoff` but never rises above `z_innermost` and ends inside the trap
window is labelled trapped. -/
theorem lost_uses_signed_max :
    (∀ zs : List ℚ, escaped zs = false → (lost zs = true ↔ zInnermost < zMax zs)) ∧
    trapped [-(1:ℚ)/2, 0] = true ∧ (-(1:ℚ)/2 < -zCutoff) := by
  refine ⟨fun zs h => ?_, ?_, ?_⟩
  · simp [lost, h]
  · have hesc : escaped [-(1:ℚ)/2, 0] = false := by
      rw [escaped]
      have h1 : zFinal [-(1:ℚ)/2, 0] = 0 := rfl
      have h2 : cutIndex [-(1:ℚ)/2, 0] = 2 := by
        norm_num [cutIndex, zCutoff, List.findIdx_cons]
      rw [h1, h2]
      norm_num [zTrap]
    have hmax : zMax [-(1:ℚ)/2, 0] = 0 := by
      show max (-(1:ℚ)/2) 0 = 0
      norm_num
    rw [trapped, lost, hesc, hmax]
    norm_num [zInnermost]
  · rw [zCutoff]; norm_num

/-- Witness for C10: the signed-maximum criterion applied to the concrete
non-escaped history `[-1/2, 0]`. -/
theorem lost_uses_signed_max_witness :
    lost [-(1:ℚ)/2, 0] = true ↔ zInnermost < zMax [-(1:ℚ)/2, 0] :=
  lost_uses_signed_max.1 [-(1:ℚ)/2, 0] (by
    rw [escaped]
    have h1 : zFinal [-(1:ℚ)/2, 0] = 0 := rfl
    have h2 : cutIndex [-(1:ℚ)/2, 0] = 2 := by
      norm_num [cutIndex, zCutoff, List.findIdx_cons]
    rw [h1, h2]
    norm_num [zTrap])

/-! ## Plotting-variant mask construction

Embedding of the trajectory-masking logic of `run_plots`
(`src/plottings/zeeman_slower_plotting.py`, lines 82-102), which uses
`np.searchsorted(z, 0.35)` instead of a first-crossing search.
`np.searchsorted` (side='left') performs the binary search
`while lo < hi: mid = (lo+hi)//2; if a[mid] < v then lo = mid+1 else hi = mid`
on the (not necessarily sorted) array; the interval `hi - lo` strictly
shrinks each iteration, so fuel `a.length` makes the fuelled model exact.
-/

def ssAux (a : List ℚ) (v : ℚ) : ℕ → ℕ → ℕ → ℕ
  | 0, lo, _ => lo
  | fuel + 1, lo, hi =>
    if lo < hi then
      let mid := (lo + hi) / 2
      if a.getD mid 0 < v then ssAux a v fuel (mid + 1) hi
      else ssAux a v fuel lo mid
    else lo

/-- `np.searchsorted(a, v)` with side='left'. -/
def searchsorted (a : List ℚ) (v : ℚ) : ℕ := ssAux a v a.length 0 a.length

/-- The time-index mask built in `run_plots`: `cut_idx = np.searchsorted(z, 0.35)`,
all-true when `cut_idx >= len(z)`, otherwise true exactly below `cut_idx`. -/
def plotMask (z : List ℚ) : List Bool :=
  let cutIdx := searchsorted z zCutoff
  if z.length ≤ cutIdx then List.replicate z.length true
  else (List.range z.length).map (fun i => decide (i < cutIdx))

/-- The intended mask of `catching_rate`: timesteps strictly before the first
index at which z exceeds `z_cutoff` (`time_indices < cut_indices`). -/
def intendedMask (z : List ℚ) : List Bool :=
  (List.range z.length).map (fun i => decide (i < cutIndex z))

/-- C9: the searchsorted-based mask of the plotting variant is not equivalent
to the intended first-crossing mask: they differ on the history `[0.4, 0.0]`,
where the particle crosses the cutoff at the first step yet the plotting mask
keeps every timestep. -/
theorem plotMask_ne_intendedMask : ∃ z : List ℚ, plotMask z ≠ intendedMask z := by
  refine ⟨[(2:ℚ)/5, 0], ?_⟩
  have hss : searchsorted [(2:ℚ)/5, 0] zCutoff = 2 := by
    norm_num [searchsorted, ssAux, List.getD, zCutoff]
  have hci : cutIndex [(2:ℚ)/5, 0] = 0 := by
    norm_num [cutIndex, zCutoff, List.findIdx_cons]
  have h1 : plotMask [(2:ℚ)/5, 0] = [true, true] := by
    rw [plotMask]
    simp [hss]
  have h2 : intendedMask [(2:ℚ)/5, 0] = [false, false] := by
    rw [intendedMask]
    simp [hci]
  rw [h1, h2]
  simp

/-! ## CDF builder

Embedding of `build_cdf_axial` / `build_cdf_ortho`
(`src/configurations/oven_diffraction.py`, lines 87-130).  Both functions run
the identical pipeline
`v = geomspace(vmin, vmax, n); pdf = f(v); pdf /= trapezoid(pdf, v);
cdf = cumsum(pdf[:-1] * diff(v)); cdf = insert(cdf, 0, 0); cdf /= cdf[-1]`
and differ only in the domain constants, so a single `build_cdf` over an
explicit grid models both.  `np.geomspace` produces the grid
`vmin * ((vmax/vmin)^(1/(n-1)))^i`; its step ratio is irrational in general,
so the ratio is abstracted as a parameter `r` of `geomGrid`.
-/

/-- `np.geomspace` grid shape: `vmin * r^i` for `i < n`. -/
def geomGrid (vmin r : ℚ) (n : ℕ) : List ℚ :=
  (List.range n).map (fun i => vmin * r ^ i)

/-- `np.diff(v)`: successive differences `v[i+1] - v[i]`. -/
def diffList (v : List ℚ) : List ℚ :=
  List.zipWith (fun a b => a - b) v.tail v

/-- `np.trapezoid(y, x)`: the trapezoidal-rule integral
`Σ (x[i+1]-x[i])·(y[i]+y[i+1])/2`. -/
def trapz : List ℚ → List ℚ → ℚ
  | y1 :: y2 :: ys, x1 :: x2 :: xs => (x2 - x1) * (y1 + y2) / 2 + trapz (y2 :: ys) (x2 :: xs)
  | _, _ => 0

/-- `np.cumsum` prefixed by `np.insert(·, 0, 0.0)`: partial sums starting
from `a` (the code starts from `0`). -/
def scanSum (a : ℚ) : List ℚ → List ℚ
  | [] => [a]
  | x :: xs => a :: scanSum (a + x) xs

/-- Head of a rational list (lists produced by `scanSum` are never empty). -/
def headQ : List ℚ → ℚ
  | [] => 0
  | x :: _ => x

/-- Last entry of a rational list, `cdf[-1]`. -/
def lastQ : List ℚ → ℚ
  | [] => 0
  | [x] => x
  | _ :: x :: xs => lastQ (x :: xs)

/-- The density evaluated on the grid and normalized by its trapezoidal
integral: `pdf = f(v); pdf /= np.trapezoid(pdf, v)`. -/
def pdfNorm (f : ℚ → ℚ) (grid : List ℚ) : List ℚ :=
  (grid.map f).map (fun p => p / trapz (grid.map f) grid)

/-- The un-renormalized CDF: `np.insert(np.cumsum(pdf[:-1] * np.diff(v)), 0, 0.0)`. -/
def cdfRaw (f : ℚ → ℚ) (grid : List ℚ) : List ℚ :=
  scanSum 0 (List.zipWith (fun p d => p * d) (pdfNorm f grid).dropLast (diffList grid))

/-- The full CDF table construction of `build_cdf_axial` / `build_cdf_ortho`
(given the grid): the cumulative table renormalized by its last entry. -/
def build_cdf (f : ℚ → ℚ) (grid : List ℚ) : List ℚ :=
  (cdfRaw f grid).map (fun c => c / lastQ (cdfRaw f grid))

lemma scanSum_eq_cons (a : ℚ) (l : List ℚ) : ∃ t, scanSum a l = a :: t := by
  cases l <;> exact ⟨_, rfl⟩

lemma scanSum_ne_nil (a : ℚ) (l : List ℚ) : scanSum a l ≠ [] := by
  obtain ⟨t, ht⟩ := scanSum_eq_cons a l
  simp [ht]

lemma lastQ_map (g : ℚ → ℚ) (l : List ℚ) (h : l ≠ []) :
    lastQ (l.map g) = g (lastQ l) := by
  induction l with
  | nil => exact absurd rfl h
  | cons x xs ih =>
    cases xs with
    | nil => rfl
    | cons y ys =>
      show lastQ (g x :: g y :: ys.map g) = g (lastQ (x :: y :: ys))
      rw [show lastQ (g x :: g y :: ys.map g) = lastQ ((y :: ys).map g) from rfl]
      rw [show lastQ (x :: y :: ys) = lastQ (y :: ys) from rfl]
      exact ih (by simp)

lemma chain'_scanSum (a : ℚ) (l : List ℚ) (h : ∀ x ∈ l, 0 ≤ x) :
    List.Chain' (· ≤ ·) (scanSum a l) := by
  induction l generalizing a with
  | nil => simp [scanSum]
  | cons x xs ih =>
    show List.Chain' (· ≤ ·) (a :: scanSum (a + x) xs)
    rw [List.chain'_cons']
    constructor
    · intro y hy
      obtain ⟨t, ht⟩ := scanSum_eq_cons (a + x) xs
      rw [ht] at hy
      simp only [List.head?_cons, Option.mem_def, Option.some_inj] at hy
      have hx : 0 ≤ x := h x (by simp)
      linarith [hy ▸ (le_refl (a + x))]
    · exact ih (a + x) (fun y hy => h y (by simp [hy]))

lemma trapz_nonneg (ys : List ℚ) : ∀ xs : List ℚ, (∀ y ∈ ys, 0 ≤ y) →
    List.Chain' (· ≤ ·) xs → 0 ≤ trapz ys xs := by
  induction ys with
  | nil => intro xs _ _; simp [trapz]
  | cons y1 ys ih =>
    intro xs hy hx
    cases ys with
    | nil => simp [trapz]
    | cons y2 ys' =>
      cases xs with
      | nil => simp [trapz]
      | cons x1 xs' =>
        cases xs' with
        | nil => simp [trapz]
        | cons x2 xs'' =>
          rw [show trapz (y1 :: y2 :: ys') (x1 :: x2 :: xs'') =
              (x2 - x1) * (y1 + y2) / 2 + trapz (y2 :: ys') (x2 :: xs'') from rfl]
          have h12 : x1 ≤ x2 := (List.chain'_cons.mp hx).1
          have hy1 : 0 ≤ y1 := hy y1 (by simp)
          have hy2 : 0 ≤ y2 := hy y2 (by simp)
          have hterm : 0 ≤ (x2 - x1) * (y1 + y2) / 2 :=
            div_nonneg (mul_nonneg (by linarith) (by linarith)) (by norm_num)
          have hrest : 0 ≤ trapz (y2 :: ys') (x2 :: xs'') :=
            ih (x2 :: xs'') (fun y hmem => hy y (List.mem_cons_of_mem _ hmem))
              (List.chain'_cons.mp hx).2
          linarith
  

lemma zipWith_mul_nonneg (l1 : List ℚ) : ∀ l2 : List ℚ,
    (∀ x ∈ l1, 0 ≤ x) → (∀ x ∈ l2, 0 ≤ x) →
    ∀ x ∈ List.zipWith (fun p d => p * d) l1 l2, 0 ≤ x := by
  induction l1 with
  | nil => intro l2 _ _ x hx; simp at hx
  | cons a l1 ih =>
    intro l2 h1 h2 x hx
    cases l2 with
    | nil => simp at hx
    | cons b l2 =>
      simp only [List.zipWith_cons_cons, List.mem_cons] at hx
      rcases hx with rfl | hx
      · exact mul_nonneg (h1 a (by simp)) (h2 b (by simp))
      · exact ih l2 (fun y hy => h1 y (by simp [hy]))
          (fun y hy => h2 y (by simp [hy])) x hx

lemma diffList_nonneg (v : List ℚ) (hv : List.Chain' (· ≤ ·) v) :
    ∀ x ∈ diffList v, 0 ≤ x := by
  induction v with
  | nil => intro x hx; simp [diffList] at hx
  | cons a v ih =>
    intro x hx
    cases v with
    | nil => simp [diffList] at hx
    | cons b v' =>
      rw [show diffList (a :: b :: v') = (b - a) :: diffList (b :: v') from rfl] at hx
      rcases List.mem_cons.mp hx with rfl | hx
      · have : a ≤ b := (List.chain'_cons.mp hv).1
        linarith
      · exact ih (List.chain'_cons.mp hv).2 x hx

lemma chain'_geomGrid (vmin r : ℚ) (n : ℕ) (hv : 0 < vmin) (hr : 1 < r) :
    List.Chain' (· < ·) (geomGrid vmin r n) := by
  rw [geomGrid, List.chain'_map]
  cases n with
  | zero => simp
  | succ m =>
    rw [List.chain'_range_succ]
    intro i _
    have hrpos : (0:ℚ) < r ^ i := pow_pos (by linarith) i
    have hpow : r ^ i < r ^ (i + 1) := by
      calc r ^ i = r ^ i * 1 := by ring
      _ < r ^ i * r := by nlinarith
      _ = r ^ (i + 1) := by ring
    exact mul_lt_mul_of_pos_left hpow hv

lemma pdfNorm_nonneg (f : ℚ → ℚ) (grid : List ℚ)
    (hf : ∀ v ∈ grid, 0 ≤ f v) (hg : List.Chain' (· ≤ ·) grid) :
    ∀ p ∈ pdfNorm f grid, 0 ≤ p := by
  intro p hp
  rw [pdfNorm] at hp
  obtain ⟨q, hq, rfl⟩ := List.mem_map.mp hp
  obtain ⟨v, hv, rfl⟩ := List.mem_map.mp hq
  have hI : 0 ≤ trapz (grid.map f) grid := by
    refine trapz_nonneg (grid.map f) grid ?_ hg
    intro y hy
    obtain ⟨w, hw, rfl⟩ := List.mem_map.mp hy
    exact hf w hw
  exact div_nonneg (hf v hv) hI

lemma chain'_cdfRaw (f : ℚ → ℚ) (grid : List ℚ)
    (hf : ∀ v ∈ grid, 0 ≤ f v) (hg : List.Chain' (· ≤ ·) grid) :
    List.Chain' (· ≤ ·) (cdfRaw f grid) := by
  rw [cdfRaw]
  refine chain'_scanSum 0 _ ?_
  refine zipWith_mul_nonneg _ _ ?_ ?_
  · intro x hx
    exact pdfNorm_nonneg f grid hf hg x (List.mem_of_mem_dropLast hx)
  · exact diffList_nonneg grid hg

/-- C3: on a strictly increasing geometric grid (any ratio `r > 1`, start
`vmin > 0`), for every nonnegative density with positive accumulated mass the
built CDF table is monotone, starts at `0` and ends exactly at `1` after the
final renormalization. -/
theorem build_cdf_monotone_bounds (f : ℚ → ℚ) (vmin r : ℚ) (n : ℕ)
    (hv : 0 < vmin) (hr : 1 < r)
    (hf : ∀ v ∈ geomGrid vmin r n, 0 ≤ f v)
    (hpos : 0 < lastQ (cdfRaw f (geomGrid vmin r n))) :
    List.Chain' (· < ·) (geomGrid vmin r n) ∧
    headQ (build_cdf f (geomGrid vmin r n)) = 0 ∧
    List.Chain' (· ≤ ·) (build_cdf f (geomGrid vmin r n)) ∧
    lastQ (build_cdf f (geomGrid vmin r n)) = 1 := by
  have hgrid : List.Chain' (· < ·) (geomGrid vmin r n) := chain'_geomGrid vmin r n hv hr
  have hgrid' : List.Chain' (· ≤ ·) (geomGrid vmin r n) :=
    List.Chain'.imp (fun a b hab => le_of_lt hab) hgrid
  have hraw : List.Chain' (· ≤ ·) (cdfRaw f (geomGrid vmin r n)) :=
    chain'_cdfRaw f _ hf hgrid'
  have hne : cdfRaw f (geomGrid vmin r n) ≠ [] := by
    rw [cdfRaw]; exact scanSum_ne_nil _ _
  refine ⟨hgrid, ?_, ?_, ?_⟩
  · obtain ⟨t, ht⟩ : ∃ t, cdfRaw f (geomGrid vmin r n) = 0 :: t := by
      rw [cdfRaw]; exact scanSum_eq_cons 0 _
    rw [build_cdf, ht]
    show (0:ℚ) / lastQ (0 :: t) = 0
    exact zero_div _
  · rw [build_cdf, List.chain'_map]
    exact List.Chain'.imp
      (fun a b hab => div_le_div_of_nonneg_right hab (le_of_lt hpos)) hraw
  · rw [build_cdf, lastQ_map _ _ hne]
    exact div_self (ne_of_gt hpos)

/-- Witness for C3: the constant density `1` on the geometric grid
`[1, 2, 4]` yields the CDF table `[0, 1/3, 1]`. -/
theorem build_cdf_monotone_bounds_witness :
    List.Chain' (· < ·) (geomGrid 1 2 3) ∧
    headQ (build_cdf (fun _ => (1:ℚ)) (geomGrid 1 2 3)) = 0 ∧
    List.Chain' (· ≤ ·) (build_cdf (fun _ => (1:ℚ)) (geomGrid 1 2 3)) ∧
    lastQ (build_cdf (fun _ => (1:ℚ)) (geomGrid 1 2 3)) = 1 := by
  refine build_cdf_monotone_bounds (fun _ => (1:ℚ)) 1 2 3 (by norm_num) (by norm_num)
    (fun v _ => by norm_num) ?_
  have hgrid : geomGrid 1 2 3 = [1, 2, 4] := by
    norm_num [geomGrid, List.range_succ]
  rw [cdfRaw, hgrid]
  norm_num [pdfNorm, trapz, diffList, scanSum, lastQ]

/-! ## Grid construction errors (`build_cdf_ortho` with a nonpositive domain)

`sample_velocities` calls `build_cdf_ortho(orthogonal_distribution)` directly
and no function in `src/configurations/oven_diffraction.py` validates
`V_MIN_ORTHO`; the module docstring merely warns "you can not input V_MIN = 0
... leads to division by 0 in the code".  At `v_min = 0` or `v_min < 0` the
failure arises inside `build_cdf_ortho` from `np.geomspace`, which raises
`ValueError` on a zero endpoint or endpoints of opposite signs (and, past the
grid, `orthogonal_distribution`'s `1/v` factor is singular at `v = 0`).
-/

inductive GridError where
  | zeroEndpoint : GridError
  | oppositeSigns : GridError
deriving DecidableEq

/-- Modelled behaviour of `np.geomspace(vmin, vmax, n)`: error on a zero
endpoint or endpoints of opposite signs, otherwise the geometric grid (with
the irrational step ratio abstracted as `r`). -/
def geomspace (vmin vmax : ℚ) (n : ℕ) (r : ℚ) : Except GridError (List ℚ) :=
  if vmin = 0 ∨ vmax = 0 then .error .zeroEndpoint
  else if (vmin < 0 ∧ 0 < vmax) ∨ (vmax < 0 ∧ 0 < vmin) then .error .oppositeSigns
  else .ok (geomGrid vmin r n)

/-- `build_cdf_ortho` with explicit domain endpoints: the grid is built first
and the CDF table second; there is no prior validation of the endpoints. -/
def build_cdf_ortho (vmin vmax : ℚ) (n : ℕ) (r : ℚ) (f : ℚ → ℚ) :
    Except GridError (List ℚ × List ℚ) :=
  match geomspace vmin vmax n r with
  | .error e => .error e
  | .ok grid => .ok (grid, build_cdf f grid)

/-- C7 (code evaluation): with `v_min = 0` or `v_min < 0` the pipeline enters
the CDF builder and the failure surfaces there, from the grid construction;
no configuration-level rejection precedes the build. -/
theorem build_cdf_ortho_fails_inside_build :
    build_cdf_ortho 0 50 200000 2 (fun v => v) = .error .zeroEndpoint ∧
    build_cdf_ortho (-1) 50 200000 2 (fun v => v) = .error .oppositeSigns := by
  constructor <;> norm_num [build_cdf_ortho, geomspace]

/-! ## Inverse-transform sampling (`np.interp`)

Embedding of the interpolation step of `sample_velocities`
(`src/configurations/oven_diffraction.py`, lines 134-157):
`np.interp(u, cdf, v_grid)` clamps `u` below `cdf[0]` to `v_grid[0]` and above
`cdf[-1]` to `v_grid[-1]`, and otherwise interpolates linearly on the
containing segment.  The table is modelled as a list of `(cdf, grid)` pairs.
-/

def interp (u : ℚ) : List (ℚ × ℚ) → ℚ
  | [] => 0
  | [(_, f1)] => f1
  | (x1, f1) :: (x2, f2) :: rest =>
    if u < x1 then f1
    else if u ≤ x2 then f1 + (u - x1) * (f2 - f1) / (x2 - x1)
    else interp u ((x2, f2) :: rest)

/-- The sampling map of `sample_velocities`: each uniform draw is pushed
through `np.interp` against the CDF table. -/
def sample_speeds (us : List ℚ) (tbl : List (ℚ × ℚ)) : List ℚ :=
  us.map (fun u => interp u tbl)

lemma interp_mem_bounds (lo hi : ℚ) (u : ℚ) : ∀ tbl : List (ℚ × ℚ), tbl ≠ [] →
    (∀ p ∈ tbl, lo ≤ p.2 ∧ p.2 ≤ hi) → lo ≤ interp u tbl ∧ interp u tbl ≤ hi := by
  intro tbl
  induction tbl with
  | nil => intro h; exact absurd rfl h
  | cons hd tl ih =>
    intro _ hb
    obtain ⟨x1, f1⟩ := hd
    cases tl with
    | nil => exact hb (x1, f1) (by simp)
    | cons hd2 tl2 =>
      obtain ⟨x2, f2⟩ := hd2
      have hf1 := hb (x1, f1) (by simp)
      have hf2 := hb (x2, f2) (by simp)
      rw [show interp u ((x1, f1) :: (x2, f2) :: tl2) =
          if u < x1 then f1
          else if u ≤ x2 then f1 + (u - x1) * (f2 - f1) / (x2 - x1)
          else interp u ((x2, f2) :: tl2) from rfl]
      by_cases h1 : u < x1
      · rw [if_pos h1]; exact hf1
      · rw [if_neg h1]
        by_cases h2 : u ≤ x2
        · rw [if_pos h2]
          push_neg at h1
          rcases lt_trichotomy x1 x2 with hlt | heq | hgt
          · have hd0 : (0:ℚ) < x2 - x1 := by linarith
            set t := (u - x1) / (x2 - x1) with ht
            have ht0 : 0 ≤ t := div_nonneg (by linarith) (by linarith)
            have ht1 : t ≤ 1 := by rw [ht, div_le_one hd0]; linarith
            have hform : f1 + (u - x1) * (f2 - f1) / (x2 - x1) =
                (1 - t) * f1 + t * f2 := by
              rw [ht]; field_simp; ring
            rw [hform]
            constructor
            · nlinarith [hf1.1, hf2.1]
            · nlinarith [hf1.2, hf2.2]
          · have hu : u = x1 := le_antisymm (heq ▸ h2) h1
            rw [hu]
            simpa using hf1
          · exfalso; linarith
        · rw [if_neg h2]
          exact ih (by simp) (fun p hp => hb p (List.mem_cons_of_mem _ hp))

/-- C5: every speed produced by the inverse-transform interpolation against a
CDF table whose grid column lies within `[v_min, v_max]` itself lies within
`[v_min, v_max]`, for every sequence of draws; the interpolation is a total
function with no failure path. -/
theorem sample_speeds_within_domain (us : List ℚ) (tbl : List (ℚ × ℚ))
    (vmin vmax : ℚ) (hne : tbl ≠ [])
    (hb : ∀ p ∈ tbl, vmin ≤ p.2 ∧ p.2 ≤ vmax) :
    ∀ s ∈ sample_speeds us tbl, vmin ≤ s ∧ s ≤ vmax := by
  intro s hs
  rw [sample_speeds] at hs
  obtain ⟨u, _, rfl⟩ := List.mem_map.mp hs
  exact interp_mem_bounds vmin vmax u tbl hne hb

/-- Witness for C5: a draw of `1/2` against the two-point table
`cdf = [0, 1], grid = [5, 1500]` lands inside `[5, 1500]`. -/
theorem sample_speeds_within_domain_witness :
    (5:ℚ) ≤ interp (1/2) [(0, 5), (1, 1500)] ∧
      interp (1/2) [((0:ℚ), (5:ℚ)), (1, 1500)] ≤ 1500 :=
  sample_speeds_within_domain [1/2] [((0:ℚ), (5:ℚ)), (1, 1500)] 5 1500 (by simp)
    (by
      intro p hp
      simp only [List.mem_cons, List.not_mem_nil, or_false] at hp
      rcases hp with rfl | rfl <;> norm_num)
    (interp (1/2) [((0:ℚ), (5:ℚ)), (1, 1500)]) (by simp [sample_speeds])

/-! ## Aperture position sampler

Embedding of `sample_positions` (`src/configurations/oven_diffraction.py`,
lines 162-201).  The Gaussian draws are modelled by an explicit stream of
candidate `(x, y)` pairs; the `while count < N_ATOMS` loop carries explicit
fuel, with `none` standing for "the loop has not returned within `fuel`
rounds" (so `none` for every fuel is non-termination).  Each round draws
`batch_size` fresh candidates, keeps those inside the circular aperture and
appends at most `n_to_sample` of them, exactly as the code stores
`accepted[:n_accept]` into the result array.  The constant third coordinate
`z = -0.15` carries no information and is dropped from the model.
-/

/-- `batch_size = int(n_to_sample * 1.5) + 10`: the float product `1.5·r` is
exact for the relevant range and `int()` truncates toward zero, so the Python
value is `⌊3r/2⌋ + 10`. -/
def batchSize (remaining : ℕ) : ℕ := 3 * remaining / 2 + 10

/-- The circular-aperture test `x**2 + y**2 <= R**2` (`R2` stands for `R**2`). -/
def inAperture (R2 : ℚ) (p : ℚ × ℚ) : Bool := decide (p.1 ^ 2 + p.2 ^ 2 ≤ R2)

/-- The rejection loop of `sample_positions`. -/
def sampleLoop (R2 : ℚ) (stream : ℕ → ℚ × ℚ) (N : ℕ) :
    ℕ → ℕ → List (ℚ × ℚ) → Option (List (ℚ × ℚ))
  | 0, _, acc => if N ≤ acc.length then some acc else none
  | fuel + 1, pos, acc =>
    if N ≤ acc.length then some acc
    else
      sampleLoop R2 stream N fuel (pos + batchSize (N - acc.length))
        (acc ++ ((((List.range (batchSize (N - acc.length))).map
          (fun i => stream (pos + i))).filter (inAperture R2)).take (N - acc.length)))

/-- `sample_positions`: run the rejection loop from an empty accumulator. -/
def sample_positions (R2 : ℚ) (stream : ℕ → ℚ × ℚ) (N fuel : ℕ) :
    Option (List (ℚ × ℚ)) :=
  sampleLoop R2 stream N fuel 0 []

/-- C8 counterexample: in a round with `remaining = 1` the code draws
`int(1.5)+10 = 11` candidates, not `ceil(1.5)+10 = 12` as claimed. -/
theorem batchSize_ne_ceil_at_one :
    batchSize 1 = 11 ∧ ⌈(3:ℚ) * 1 / 2⌉₊ + 10 = 12 ∧
      batchSize 1 ≠ ⌈(3:ℚ) * 1 / 2⌉₊ + 10 := by
  have h : (⌈(3:ℚ) * 1 / 2⌉₊ : ℕ) = 2 := by
    rw [Nat.ceil_eq_iff (by norm_num)]
    norm_num
  refine ⟨rfl, by rw [h], ?_⟩
  rw [h]
  decide

/-- C8 amended: each round of the rejection loop draws
`floor(1.5·remaining) + 10` new candidates (truncation, not ceiling; the two
agree exactly when `remaining` is even). -/
theorem batchSize_eq_floor (r : ℕ) : batchSize r = ⌊(3 * (r:ℚ)) / 2⌋₊ + 10 := by
  have h : (3 * (r:ℚ)) / 2 = ((3 * r : ℕ) : ℚ) / ((2:ℕ) : ℚ) := by push_cast; ring
  rw [batchSize, h, Nat.floor_div_nat, Nat.floor_natCast]

lemma sampleLoop_sound (R2 : ℚ) (stream : ℕ → ℚ × ℚ) (N : ℕ) :
    ∀ fuel pos acc ps, acc.length ≤ N →
      (∀ p ∈ acc, p.1 ^ 2 + p.2 ^ 2 ≤ R2) →
      sampleLoop R2 stream N fuel pos acc = some ps →
      ps.length = N ∧ ∀ p ∈ ps, p.1 ^ 2 + p.2 ^ 2 ≤ R2 := by
  intro fuel
  induction fuel with
  | zero =>
    intro pos acc ps hlen hmem heq
    simp only [sampleLoop] at heq
    by_cases h : N ≤ acc.length
    · rw [if_pos h] at heq
      obtain rfl : acc = ps := Option.some.inj heq
      exact ⟨le_antisymm hlen h, hmem⟩
    · rw [if_neg h] at heq
      exact absurd heq (by simp)
  | succ fuel ih =>
    intro pos acc ps hlen hmem heq
    simp only [sampleLoop] at heq
    by_cases h : N ≤ acc.length
    · rw [if_pos h] at heq
      obtain rfl : acc = ps := Option.some.inj heq
      exact ⟨le_antisymm hlen h, hmem⟩
    · rw [if_neg h] at heq
      refine ih _ _ ps ?_ ?_ heq
      · rw [List.length_append]
        have htake : ((((List.range (batchSize (N - acc.length))).map
            (fun i => stream (pos + i))).filter (inAperture R2)).take
              (N - acc.length)).length ≤ N - acc.length := by
          rw [List.length_take]
          omega
        omega
      · intro p hp
        rcases List.mem_append.mp hp with h1 | h2
        · exact hmem p h1
        · have h3 := List.mem_of_mem_take h2
          have h4 := (List.mem_filter.mp h3).2
          rw [inAperture] at h4
          exact of_decide_eq_true h4

/-- C4: whenever the rejection sampler returns (it does so with probability
one when the acceptance probability is positive), it returns exactly `N`
positions and every one of them satisfies `x² + y² ≤ R²` with `R = D/2` —
for every candidate stream, i.e. regardless of `σ_x`, `σ_y`, `R`. -/
theorem sample_positions_exact_count (Dd : ℚ) (stream : ℕ → ℚ × ℚ) (N fuel : ℕ)
    (ps : List (ℚ × ℚ)) (h : sample_positions ((Dd / 2) ^ 2) stream N fuel = some ps) :
    ps.length = N ∧ ∀ p ∈ ps, p.1 ^ 2 + p.2 ^ 2 ≤ (Dd / 2) ^ 2 :=
  sampleLoop_sound ((Dd / 2) ^ 2) stream N fuel 0 [] ps (by simp) (by simp) h

lemma sample_positions_origin_eval :
    sample_positions (((2:ℚ) / 2) ^ 2) (fun _ => ((0:ℚ), (0:ℚ))) 1 1 =
      some [((0:ℚ), (0:ℚ))] := by
  have hp : inAperture (((2:ℚ) / 2) ^ 2) ((0:ℚ), (0:ℚ)) = true := by
    rw [inAperture]
    norm_num
  rw [sample_positions]
  simp only [sampleLoop, List.length_nil, Nat.sub_zero, Nat.le_zero,
    Nat.one_ne_zero, if_false, List.nil_append]
  have hflt : (((List.range (batchSize 1)).map
      (fun i => (fun _ => ((0:ℚ), (0:ℚ))) (0 + i))).filter
        (inAperture (((2:ℚ) / 2) ^ 2))) = List.replicate 11 ((0:ℚ), (0:ℚ)) := by
    rw [show (List.range (batchSize 1)).map
        (fun i => (fun _ => ((0:ℚ), (0:ℚ))) (0 + i)) =
          List.replicate 11 ((0:ℚ), (0:ℚ)) from rfl]
    rw [List.filter_eq_self.mpr]
    intro a ha
    rw [List.eq_of_mem_replicate ha]
    exact hp
  rw [hflt]
  rw [show (List.replicate 11 ((0:ℚ), (0:ℚ))).take 1 = [((0:ℚ), (0:ℚ))] from rfl]
  simp [sampleLoop]

/-- Witness for C4: the concrete run with unit radius, candidates at the
origin, `N = 1` and one round of fuel. -/
theorem sample_positions_exact_count_witness :
    ([((0:ℚ), (0:ℚ))]).length = 1 ∧
      ∀ p ∈ [((0:ℚ), (0:ℚ))], p.1 ^ 2 + p.2 ^ 2 ≤ ((2:ℚ) / 2) ^ 2 :=
  sample_positions_exact_count 2 (fun _ => ((0:ℚ), (0:ℚ))) 1 1 [((0:ℚ), (0:ℚ))]
    sample_positions_origin_eval

/-- A candidate stream that never hits the origin. -/
def onesStream : ℕ → ℚ × ℚ := fun _ => (1, 1)

/-- Non-termination of the rejection loop at aperture radius `R = 0` on a
stream of candidates away from the origin: no amount of fuel suffices. -/
def loopsForeverOnZeroRadius : Prop :=
  ∀ fuel pos : ℕ, sampleLoop 0 onesStream 5 fuel pos [] = none

/-- C6 (code evaluation): `sample_positions` performs no degeneracy check:
with `R = 0` the loop is entered and, the acceptance condition being
unreachable for the nonzero Gaussian draws, it never returns. -/
theorem sample_positions_zero_radius_loops : loopsForeverOnZeroRadius := by
  intro fuel
  induction fuel with
  | zero =>
    intro pos
    simp only [sampleLoop, List.length_nil]
    rw [if_neg (by norm_num)]
  | succ fuel ih =>
    intro pos
    simp only [sampleLoop, List.length_nil, Nat.sub_zero]
    rw [if_neg (by norm_num)]
    have hflt : (((List.range (batchSize 5)).map
        (fun i => onesStream (pos + i))).filter (inAperture 0)) = [] := by
      rw [List.filter_eq_nil_iff]
      intro a ha
      obtain ⟨i, _, rfl⟩ := List.mem_map.mp ha
      rw [onesStream, inAperture]
      norm_num
    rw [hflt]
    simp only [List.take_nil, List.append_nil]
    exact ih (pos + batchSize 5)
